import Mathlib

/-!
# Verification of the simstim permission-bridge core

Shallow embedding, in Lean 4, of the components of the `simstim` repository
that the specification's claims are about:

* `simstim/bridge/permission_queue.py` — pending-request table with response
  futures, timeout race, cancellation;
* `simstim/audit/logger.py` — hash-chained HMAC-signed audit log, rotation,
  and `verify_audit_log`;
* `simstim/policies/engine.py` — ordered auto-approve policy evaluation with
  glob patterns (`fnmatch`) and brace alternation;
* `simstim/security/crypto.py` — signed callback tokens with freshness checks;
* `simstim/bridge/rate_limiter.py` — denial counting and exponential backoff;
* `simstim/bridge/offline_queue.py` — bounded drop-oldest event queue.

Modelling conventions used throughout:

* Python `asyncio` code runs each coroutine body atomically between `await`
  points, so the queue operations `respond`, the body of `_timeout_handler`
  after its sleep, `cancel_all`, and the `finally` cleanup of `add` are
  modelled as atomic transitions on an explicit state; an interleaving is a
  list of such transitions.
* Hash values (the raw `bytes` of HMAC digests) are modelled by their
  lowercase hex strings; `bytes.fromhex` / `bytes.hex` translate between the
  two in Python and are mutually inverse on every value that arises here, so
  the identification is faithful.
* HMAC-SHA256 under a fixed key is an arbitrary function parameter
  (`mac : String → String → String` taking the previous hash and the
  payload); none of the verified properties depend on anything beyond the
  function being a function, except counterexamples, which instantiate it
  with a concrete injective-on-the-inputs-used function producing hex output.
* `datetime` instants and float second counts are modelled as rationals
  (`ℚ`), unix timestamps as integers.
* Python dicts keyed by request id / rotation slot are association lists
  with unique keys; Python `==`/`in`/`if` tests are rendered as decidable
  propositions.
-/

namespace Simstim

/-! ## Permission queue (`simstim/bridge/permission_queue.py`)

`PermissionResponse` mirrors the dataclass of the source; the
`response_time : datetime` field (a wall-clock reading never consulted by the
queue logic) is omitted.  `PermissionRequest` carries action/target/context
data that the queue never inspects, so a pending request is represented by
its id's presence in the pending table. -/

structure PermissionResponse where
  request_id : String
  approved : Bool
  responded_by : Int
  auto_approved : Bool
  policy_name : Option String
deriving DecidableEq, Repr

/-- State of a `PermissionQueue`: the keys of the `_pending` dict and the
`_response_futures` dict.  A future is `none` while unresolved and
`some r` once `set_result(r)` has run (an `asyncio` future can be resolved
at most once; `set_result` is only ever called under a `not future.done()`
guard, which the model reflects by checking for `none`). -/
structure QState where
  pending : List String
  response_futures : List (String × Option PermissionResponse)
deriving DecidableEq, Repr

/-- Association-list update: set the value at `k` (no-op if `k` absent),
modelling `dict[k].set_result(v)` on an existing entry. -/
def fset (m : List (String × Option PermissionResponse)) (k : String)
    (v : Option PermissionResponse) : List (String × Option PermissionResponse) :=
  m.map fun kv => if kv.1 = k then (kv.1, v) else kv

/-- `PermissionQueue.respond`: returns the updated state and the boolean
result.  Mirrors the source: unknown id → `False`; known id with a live
unresolved future → resolve it and return `True`; otherwise `False`. -/
def respondStep (st : QState) (r : PermissionResponse) : QState × Bool :=
  if r.request_id ∈ st.pending then
    match st.response_futures.lookup r.request_id with
    | some none => ({ st with response_futures := fset st.response_futures r.request_id (some r) }, true)
    | _ => (st, false)
  else
    (st, false)

/-- The response `_timeout_handler` synthesizes on expiry. -/
def timeoutResponse (default_action : String) (request_id : String) : PermissionResponse :=
  { request_id := request_id
    approved := default_action == "approve"
    responded_by := 0
    auto_approved := true
    policy_name := some "timeout" }

/-- Body of `PermissionQueue._timeout_handler` after its sleep: if the id is
still pending and its future unresolved, resolve it with the synthesized
timeout response. -/
def timeoutStep (default_action : String) (st : QState) (id : String) : QState :=
  if id ∈ st.pending then
    match st.response_futures.lookup id with
    | some none => { st with response_futures := fset st.response_futures id (some (timeoutResponse default_action id)) }
    | _ => st
  else st

/-- The response `cancel_all` synthesizes for each pending request. -/
def cancelResponse (request_id : String) : PermissionResponse :=
  { request_id := request_id
    approved := false
    responded_by := 0
    auto_approved := true
    policy_name := some "cancelled" }

/-- Loop body of `cancel_all` for one pending id: if its future is live and
unresolved, resolve it with the cancellation response. -/
def cancelOne (fs : List (String × Option PermissionResponse)) (id : String) :
    List (String × Option PermissionResponse) :=
  match fs.lookup id with
  | some none => fset fs id (some (cancelResponse id))
  | _ => fs

/-- `PermissionQueue.cancel_all`: resolve every pending id whose future is
still unresolved; return the prior pending count. -/
def cancelAllStep (st : QState) : QState × Nat :=
  ({ st with response_futures := st.pending.foldl cancelOne st.response_futures },
    st.pending.length)

/-- `PermissionQueue._cleanup`, run by `add`'s `finally` once its future has
resolved: drop the id from both tables (the timer-task cancellation has no
observable effect beyond `timeoutStep` becoming a no-op, which the
pending-membership guard already ensures). -/
def cleanupStep (st : QState) (id : String) : QState :=
  { pending := st.pending.filter (fun x => x ≠ id)
    response_futures := st.response_futures.filter (fun kv => kv.1 ≠ id) }

/-- One atomic scheduler step of the queue: an external `respond`, a timer
firing, a shutdown `cancel_all`, or the post-resolution cleanup of `add`. -/
inductive QEvent where
  | respond (r : PermissionResponse)
  | timeoutFire (id : String)
  | cancelAll
  | cleanup (id : String)
deriving DecidableEq, Repr

def stepQ (default_action : String) (st : QState) : QEvent → QState
  | .respond r => (respondStep st r).1
  | .timeoutFire id => timeoutStep default_action st id
  | .cancelAll => (cancelAllStep st).1
  | .cleanup id => cleanupStep st id

/-- The response delivered to the caller of `add` for `id`, if any: the value
the response future has been resolved with. -/
def resolvedFor (st : QState) (id : String) : Option PermissionResponse :=
  match st.response_futures.lookup id with
  | some (some r) => some r
  | _ => none

/-- Whether a step resolves `id`'s future, i.e. delivers a response to the
caller of `add` for `id`. -/
def deliversTo (default_action : String) (st : QState) (e : QEvent) (id : String) : Bool :=
  (resolvedFor st id).isNone && (resolvedFor (stepQ default_action st e) id).isSome

/-- Number of deliveries to `add`'s caller for `id` along a trace. -/
def deliveries (default_action : String) (st : QState) (id : String) : List QEvent → Nat
  | [] => 0
  | e :: es =>
      (if deliversTo default_action st e id then 1 else 0)
        + deliveries default_action (stepQ default_action st e) id es

/-- Number of `respond` calls for `id` along a trace that return `true`. -/
def respondTrueCount (default_action : String) (st : QState) (id : String) : List QEvent → Nat
  | [] => 0
  | e :: es =>
      (match e with
        | .respond r => if r.request_id = id ∧ (respondStep st r).2 then 1 else 0
        | _ => 0)
        + respondTrueCount default_action (stepQ default_action st e) id es

/-! ### Lemmas about the queue's association-list primitives -/

lemma fset_cons (b : String) (w : Option PermissionResponse)
    (m : List (String × Option PermissionResponse)) (k : String)
    (v : Option PermissionResponse) :
    fset ((b, w) :: m) k v = (if b = k then (b, v) else (b, w)) :: fset m k v := rfl

lemma lookup_fset_self (m : List (String × Option PermissionResponse)) (k : String)
    (v : Option PermissionResponse) :
    (fset m k v).lookup k = (m.lookup k).map (fun _ => v) := by
  induction m with
  | nil => rfl
  | cons kv m ih =>
    obtain ⟨b, w⟩ := kv
    rw [fset_cons]
    by_cases h : b = k
    · subst h
      rw [if_pos rfl]
      simp [List.lookup]
    · rw [if_neg h]
      have hkb : (k == b) = false := by simp [Ne.symm h]
      simp [List.lookup, hkb, ih]

lemma lookup_fset_ne (m : List (String × Option PermissionResponse)) (k k' : String)
    (v : Option PermissionResponse) (h : k' ≠ k) :
    (fset m k v).lookup k' = m.lookup k' := by
  induction m with
  | nil => rfl
  | cons kv m ih =>
    obtain ⟨b, w⟩ := kv
    rw [fset_cons]
    by_cases hb : b = k
    · rw [if_pos hb]
      subst hb
      have h2 : (k' == b) = false := by simp [h]
      simp [List.lookup, h2, ih]
    · rw [if_neg hb]
      simp [List.lookup, ih]

lemma lookup_filter_self (m : List (String × Option PermissionResponse)) (id : String) :
    (m.filter (fun kv => kv.1 ≠ id)).lookup id = none := by
  induction m with
  | nil => rfl
  | cons kv m ih =>
    obtain ⟨b, w⟩ := kv
    by_cases hb : b = id
    · subst hb
      rw [List.filter_cons_of_neg (by simp)]
      exact ih
    · rw [List.filter_cons_of_pos (by simp [hb]), List.lookup_cons]
      have h2 : (id == b) = false := by simp [Ne.symm hb]
      rw [h2]
      exact ih

lemma lookup_filter_ne (m : List (String × Option PermissionResponse)) (k id : String)
    (h : k ≠ id) :
    (m.filter (fun kv => kv.1 ≠ id)).lookup k = m.lookup k := by
  induction m with
  | nil => rfl
  | cons kv m ih =>
    obtain ⟨b, w⟩ := kv
    by_cases hb : b = id
    · subst hb
      rw [List.filter_cons_of_neg (by simp), List.lookup_cons]
      have h2 : (k == b) = false := by simp [h]
      rw [h2]
      exact ih
    · rw [List.filter_cons_of_pos (by simp [hb]), List.lookup_cons, List.lookup_cons]
      cases k == b
      · exact ih
      · rfl

lemma cancelOne_lookup_preserve (fs : List (String × Option PermissionResponse))
    (j id : String) (h : fs.lookup id ≠ some none) :
    (cancelOne fs j).lookup id = fs.lookup id := by
  unfold cancelOne
  cases hj : fs.lookup j with
  | none => rfl
  | some o =>
    cases o with
    | none =>
      by_cases hij : id = j
      · subst hij
        exact absurd hj h
      · exact lookup_fset_ne _ _ _ _ hij
    | some r => rfl

lemma cancelFold_lookup_preserve (ids : List String) :
    ∀ fs : List (String × Option PermissionResponse), ∀ id : String,
      fs.lookup id ≠ some none →
      (ids.foldl cancelOne fs).lookup id = fs.lookup id := by
  induction ids with
  | nil => intro fs id _; rfl
  | cons j ids ih =>
    intro fs id h
    have h1 : (cancelOne fs j).lookup id = fs.lookup id := cancelOne_lookup_preserve fs j id h
    have h2 : (cancelOne fs j).lookup id ≠ some none := by rw [h1]; exact h
    simpa [List.foldl, h1] using ih (cancelOne fs j) id h2

/-! ### Single-resolution invariant -/

/-- Once a request's future is not in the live-unresolved state (it is
resolved, or absent because never registered or already cleaned up), no step
can return it to the unresolved state; its lookup is preserved or removed. -/
lemma stepQ_lookup_of_not_unres (da : String) (st : QState) (e : QEvent) (id : String)
    (h : st.response_futures.lookup id ≠ some none) :
    (stepQ da st e).response_futures.lookup id = st.response_futures.lookup id ∨
      (stepQ da st e).response_futures.lookup id = none := by
  cases e with
  | respond r =>
    left
    show ((respondStep st r).1.response_futures).lookup id = _
    unfold respondStep
    by_cases hp : r.request_id ∈ st.pending
    · rw [if_pos hp]
      cases hl : st.response_futures.lookup r.request_id with
      | none => rfl
      | some o =>
        cases o with
        | none =>
          by_cases hir : id = r.request_id
          · subst hir; exact absurd hl h
          · exact lookup_fset_ne _ _ _ _ hir
        | some q => rfl
    · rw [if_neg hp]
  | timeoutFire j =>
    left
    show ((timeoutStep da st j).response_futures).lookup id = _
    unfold timeoutStep
    by_cases hp : j ∈ st.pending
    · rw [if_pos hp]
      cases hl : st.response_futures.lookup j with
      | none => rfl
      | some o =>
        cases o with
        | none =>
          by_cases hij : id = j
          · subst hij; exact absurd hl h
          · exact lookup_fset_ne _ _ _ _ hij
        | some q => rfl
    · rw [if_neg hp]
  | cancelAll =>
    left
    exact cancelFold_lookup_preserve st.pending st.response_futures id h
  | cleanup j =>
    by_cases hij : id = j
    · right
      subst hij
      exact lookup_filter_self st.response_futures id
    · left
      exact lookup_filter_ne st.response_futures id j hij

lemma stepQ_not_unres (da : String) (st : QState) (e : QEvent) (id : String)
    (h : st.response_futures.lookup id ≠ some none) :
    (stepQ da st e).response_futures.lookup id ≠ some none := by
  rcases stepQ_lookup_of_not_unres da st e id h with h' | h'
  · rw [h']; exact h
  · rw [h']; exact fun hc => Option.noConfusion hc

lemma deliversTo_eq_false (da : String) (st : QState) (e : QEvent) (id : String)
    (h : st.response_futures.lookup id ≠ some none) :
    deliversTo da st e id = false := by
  unfold deliversTo
  cases hl : st.response_futures.lookup id with
  | none =>
    have hafter : (stepQ da st e).response_futures.lookup id = none := by
      rcases stepQ_lookup_of_not_unres da st e id h with h' | h'
      · rw [h', hl]
      · exact h'
    simp [resolvedFor, hafter]
  | some o =>
    cases o with
    | none => exact absurd hl h
    | some r => simp [resolvedFor, hl]

lemma deliveries_eq_zero (da : String) (id : String) :
    ∀ evs : List QEvent, ∀ st : QState,
      st.response_futures.lookup id ≠ some none →
      deliveries da st id evs = 0 := by
  intro evs
  induction evs with
  | nil => intro st _; rfl
  | cons e es ih =>
    intro st h
    have h1 : deliversTo da st e id = false := deliversTo_eq_false da st e id h
    have h2 := stepQ_not_unres da st e id h
    simp [deliveries, h1, ih _ h2]

lemma resolvedFor_isSome_not_unres (st : QState) (id : String)
    (h : (resolvedFor st id).isSome = true) :
    st.response_futures.lookup id ≠ some none := by
  unfold resolvedFor at h
  cases hl : st.response_futures.lookup id with
  | none => rw [hl] at h; simp at h
  | some o =>
    cases o with
    | none => rw [hl] at h; simp at h
    | some r =>
      intro hc
      exact Option.noConfusion (Option.some.inj hc)

lemma deliveries_le_one (da : String) (id : String) :
    ∀ evs : List QEvent, ∀ st : QState, deliveries da st id evs ≤ 1 := by
  intro evs
  induction evs with
  | nil => intro st; exact Nat.zero_le 1
  | cons e es ih =>
    intro st
    by_cases hd : deliversTo da st e id = true
    · have hs : (resolvedFor (stepQ da st e) id).isSome = true := by
        unfold deliversTo at hd
        exact (Bool.and_eq_true _ _ |>.mp hd).2
      have h0 : deliveries da (stepQ da st e) id es = 0 :=
        deliveries_eq_zero da id es _ (resolvedFor_isSome_not_unres _ id hs)
      simp [deliveries, hd, h0]
    · have hd' : deliversTo da st e id = false := by
        cases hb : deliversTo da st e id
        · rfl
        · exact absurd hb hd
      simp only [deliveries, hd', if_false]
      simpa using ih (stepQ da st e)

/-- `respond` returns `true` only from the live-unresolved state, and then
it resolves the future with exactly the submitted response. -/
lemma respondStep_true_elim (st : QState) (r : PermissionResponse)
    (h : (respondStep st r).2 = true) :
    st.response_futures.lookup r.request_id = some none ∧
      (respondStep st r).1.response_futures =
        fset st.response_futures r.request_id (some r) := by
  unfold respondStep at *
  by_cases hp : r.request_id ∈ st.pending
  · rw [if_pos hp] at h ⊢
    cases hl : st.response_futures.lookup r.request_id with
    | none => rw [hl] at h; exact Bool.noConfusion h
    | some o =>
      cases o with
      | none => exact ⟨rfl, rfl⟩
      | some q => rw [hl] at h; exact Bool.noConfusion h
  · rw [if_neg hp] at h; simp at h

lemma respondTrue_term_le (da : String) (st : QState) (id : String) (e : QEvent) :
    (match e with
      | QEvent.respond r => if r.request_id = id ∧ (respondStep st r).2 then 1 else 0
      | _ => 0) ≤ (if deliversTo da st e id then 1 else 0) := by
  cases e with
  | respond r =>
    by_cases hg : r.request_id = id ∧ (respondStep st r).2 = true
    · obtain ⟨hid, htrue⟩ := hg
      obtain ⟨hl, hf⟩ := respondStep_true_elim st r htrue
      have hbefore : (resolvedFor st id).isNone = true := by
        rw [← hid]
        simp [resolvedFor, hl]
      have hafter : (resolvedFor (stepQ da st (QEvent.respond r)) id).isSome = true := by
        rw [← hid]
        have hlook : (stepQ da st (QEvent.respond r)).response_futures.lookup r.request_id
            = some (some r) := by
          show (respondStep st r).1.response_futures.lookup r.request_id = some (some r)
          rw [hf, lookup_fset_self, hl]
          rfl
        simp [resolvedFor, hlook]
      have hd : deliversTo da st (QEvent.respond r) id = true := by
        unfold deliversTo
        rw [hbefore, hafter]
        rfl
      simp [hid, htrue, hd]
    · have hg' : ¬(r.request_id = id ∧ ((respondStep st r).2 = true)) := hg
      simp only [if_neg hg']
      exact Nat.zero_le _
  | timeoutFire j => exact Nat.zero_le _
  | cancelAll => exact Nat.zero_le _
  | cleanup j => exact Nat.zero_le _

lemma respondTrueCount_le_deliveries (da : String) (id : String) :
    ∀ evs : List QEvent, ∀ st : QState,
      respondTrueCount da st id evs ≤ deliveries da st id evs := by
  intro evs
  induction evs with
  | nil => intro st; exact Nat.le_refl 0
  | cons e es ih =>
    intro st
    have h1 := respondTrue_term_le da st id e
    have h2 := ih (stepQ da st e)
    exact Nat.add_le_add h1 h2

/-- **C1.** Across any interleaving of `respond` calls, timeout firings,
`cancel_all`, and post-resolution cleanups, at most one `PermissionResponse`
is ever delivered to the caller of `add()` for a given request id; `respond`
returns `true` for at most one call per id; and a `respond` call whose id is
unknown or whose request is already resolved returns `false` without
changing the pending table or the response futures (indeed every `false`
return leaves the state unchanged). -/
theorem claim_C1_single_resolution (da : String) (st : QState) (id : String)
    (evs : List QEvent) (r : PermissionResponse) :
    deliveries da st id evs ≤ 1 ∧
    respondTrueCount da st id evs ≤ 1 ∧
    (r.request_id ∉ st.pending ∨ (resolvedFor st r.request_id).isSome = true →
      respondStep st r = (st, false)) ∧
    ((respondStep st r).2 = false → (respondStep st r).1 = st) := by
  refine ⟨deliveries_le_one da id evs st,
    Nat.le_trans (respondTrueCount_le_deliveries da id evs st) (deliveries_le_one da id evs st),
    ?_, ?_⟩
  · intro h
    unfold respondStep
    rcases h with h | h
    · rw [if_neg h]
    · by_cases hp : r.request_id ∈ st.pending
      · rw [if_pos hp]
        cases hl : st.response_futures.lookup r.request_id with
        | none => rfl
        | some o =>
          cases o with
          | none =>
            unfold resolvedFor at h
            rw [hl] at h
            simp at h
          | some q => rfl
      · rw [if_neg hp]
  · intro h
    unfold respondStep at h ⊢
    by_cases hp : r.request_id ∈ st.pending
    · rw [if_pos hp] at h ⊢
      cases hl : st.response_futures.lookup r.request_id with
      | none => rfl
      | some o =>
        cases o with
        | none => rw [hl] at h; exact Bool.noConfusion h
        | some q => rfl
    · rw [if_neg hp]

/-- Witness for C1 at a concrete state and trace: one pending request with a
live future, raced by two responders, a timeout, a cancellation and a
cleanup — exactly one delivery, one `true` — and a concrete unknown-id
`respond` returning `false` unchanged via the theorem. -/
theorem claim_C1_single_resolution_witness :
    (deliveries "approve" ⟨["req-1"], [("req-1", none)]⟩ "req-1"
        [QEvent.respond ⟨"req-1", true, 7, false, none⟩,
         QEvent.respond ⟨"req-1", false, 8, false, none⟩,
         QEvent.timeoutFire "req-1", QEvent.cancelAll, QEvent.cleanup "req-1",
         QEvent.respond ⟨"req-1", false, 8, false, none⟩] = 1 ∧
      respondTrueCount "approve" ⟨["req-1"], [("req-1", none)]⟩ "req-1"
        [QEvent.respond ⟨"req-1", true, 7, false, none⟩,
         QEvent.respond ⟨"req-1", false, 8, false, none⟩,
         QEvent.timeoutFire "req-1", QEvent.cancelAll, QEvent.cleanup "req-1",
         QEvent.respond ⟨"req-1", false, 8, false, none⟩] = 1) ∧
    respondStep ⟨["req-1"], [("req-1", none)]⟩ ⟨"nope", false, 9, false, none⟩
      = (⟨["req-1"], [("req-1", none)]⟩, false) := by
  constructor
  · exact ⟨by decide, by decide⟩
  · exact
      (claim_C1_single_resolution "approve" ⟨["req-1"], [("req-1", none)]⟩ "req-1" []
        ⟨"nope", false, 9, false, none⟩).2.2.1 (Or.inl (by decide))

/-- **C5.** If the timeout fires while the request is still pending and its
future unresolved (no `respond` has resolved it within the window), the
caller of `add()` receives the synthesized response with
`approved = (default action == "approve")`, `responded_by = 0`,
`auto_approved = true`, `policy_name = "timeout"`. -/
theorem claim_C5_timeout_default (da : String) (st : QState) (id : String)
    (hp : id ∈ st.pending)
    (hf : st.response_futures.lookup id = some none) :
    resolvedFor (timeoutStep da st id) id =
      some { request_id := id, approved := da == "approve", responded_by := 0,
             auto_approved := true, policy_name := some "timeout" } := by
  unfold timeoutStep
  rw [if_pos hp, hf]
  have hlook : (fset st.response_futures id (some (timeoutResponse da id))).lookup id
      = some (some (timeoutResponse da id)) := by
    rw [lookup_fset_self, hf]
    rfl
  unfold resolvedFor
  rw [hlook]
  rfl

/-- Witness for C5: a concrete pending request timing out under default
action "deny" yields the synthesized denial. -/
theorem claim_C5_timeout_default_witness :
    "r9" ∈ (QState.mk ["r9"] [("r9", none)]).pending ∧
    (QState.mk ["r9"] [("r9", none)]).response_futures.lookup "r9" = some none ∧
    resolvedFor (timeoutStep "deny" (QState.mk ["r9"] [("r9", none)]) "r9") "r9" =
      some { request_id := "r9", approved := ("deny" == "approve"), responded_by := 0,
             auto_approved := true, policy_name := some "timeout" } :=
  ⟨by decide, by decide,
    claim_C5_timeout_default "deny" (QState.mk ["r9"] [("r9", none)]) "r9"
      (by decide) (by decide)⟩

/-! ## Audit log (`simstim/audit/logger.py`)

A written line is modelled post-JSON-parsing as an `AuditRec`: the event
payload is represented by its canonical JSON serialization (the producer and
the verifier both compute `json.dumps(event_dict, separators=(",", ":"),
sort_keys=True)`, so the payload only ever enters the HMAC through that
string).  `hmac` and `prev_hash` are the stored hex strings.  A file is
`Option (List AuditRec)`: `none` models a path that does not exist.  The
byte size of a written line (`st_size` accounting) is abstracted by a
measure `recSize : AuditRec → Nat` summed over the lines of the file. -/

structure AuditRec where
  event : String
  hmac : String
  prev_hash : String
deriving DecidableEq, Repr

inductive VKind where
  | chainBroken
  | invalidHmac
deriving DecidableEq, Repr

/-- One entry of the `errors` list of `verify_audit_log`: the mismatch kind
together with the 1-based line number mentioned in the message string. -/
structure VError where
  kind : VKind
  line : Nat
deriving DecidableEq, Repr

/-- Per-record loop of `verify_audit_log`, carrying the 1-based line number
and the running `prev_hash`.  For each record the source first compares the
running hash against the stored `prev_hash` field (else a chain-broken
error), then recomputes the HMAC over the *running* hash and the payload and
compares it against the stored `hmac` (else an invalid-signature error), and
finally advances the running hash to the stored `hmac` regardless. -/
def verifyFrom (mac : String → String → String) : Nat → String → List AuditRec → List VError
  | _, _, [] => []
  | n, prev, r :: rs =>
      (if prev = r.prev_hash then [] else [⟨VKind.chainBroken, n⟩])
        ++ (if mac prev r.event = r.hmac then [] else [⟨VKind.invalidHmac, n⟩])
        ++ verifyFrom mac (n + 1) r.hmac rs

/-- `verify_audit_log(log_path, hmac_key)`: a missing file is vacuously
valid; otherwise replay from an empty running hash and report
`(len(errors) == 0, errors)`. -/
def verify_audit_log (mac : String → String → String) :
    Option (List AuditRec) → Bool × List VError
  | none => (true, [])
  | some recs =>
      let errors := verifyFrom mac 1 "" recs
      (errors.isEmpty, errors)

/-- In-memory state of an `AuditLogger`: the active store, the rotated
stores by slot index (`<basename>.jsonl.<i>`), the running `_last_hash`
(as a hex string, `""` initially) and `_event_count`. -/
structure AuditState where
  main : Option (List AuditRec)
  rotated : List (Nat × List AuditRec)
  last_hash : String
  event_count : Nat
deriving DecidableEq, Repr

/-- Fresh logger state: no file written yet, empty chain. -/
def auditInit : AuditState := ⟨none, [], "", 0⟩

def rDel (m : List (Nat × List AuditRec)) (k : Nat) : List (Nat × List AuditRec) :=
  m.filter (fun kv => kv.1 ≠ k)

def rPut (m : List (Nat × List AuditRec)) (k : Nat) (v : List AuditRec) :
    List (Nat × List AuditRec) :=
  (k, v) :: rDel m k

/-- `current.rename(next_file)` for rotation slot `i` → `i + 1` (no-op when
slot `i` does not exist; overwrites the target like POSIX rename). -/
def renameSlot (m : List (Nat × List AuditRec)) (i : Nat) : List (Nat × List AuditRec) :=
  match m.lookup i with
  | some v => rPut (rDel m i) (i + 1) v
  | none => m

/-- The `for i in range(rotate_count - 1, 0, -1)` shift loop: called with
`rotate_count - 1`, it renames slot `i` to `i + 1` for `i` descending to 1. -/
def shiftDown (m : List (Nat × List AuditRec)) : Nat → List (Nat × List AuditRec)
  | 0 => m
  | i + 1 => shiftDown (renameSlot m (i + 1)) i

/-- `AuditLogger._rotate`: unlink the oldest slot, shift the rest down, move
the active store to slot 1.  Note that `_last_hash` is left untouched. -/
def rotate (rotate_count : Nat) (st : AuditState) : AuditState :=
  let m0 := rDel st.rotated rotate_count
  let m1 := shiftDown m0 (rotate_count - 1)
  match st.main with
  | some recs => { st with main := none, rotated := rPut m1 1 recs }
  | none => { st with rotated := m1 }

/-- Size of the active store under the line-size measure (0 when absent). -/
def mainSize (recSize : AuditRec → Nat) : Option (List AuditRec) → Nat
  | none => 0
  | some recs => (recs.map recSize).sum

/-- The `_maybe_rotate` trigger: the file exists and its size is at least
`_max_size`. -/
def wouldRotate (recSize : AuditRec → Nat) (maxSize : Nat) (st : AuditState) : Bool :=
  match st.main with
  | none => false
  | some recs => decide (maxSize ≤ (recs.map recSize).sum)

/-- `AuditLogger.log(event)`: maybe rotate, sign the canonical payload over
the running hash, append the signed record (creating the file if absent),
then advance `_last_hash` to the new signature.  The source logs and
swallows `OSError` on the write; disk failure is outside this model, which
covers the successful-write path the claims are about. -/
def log (mac : String → String → String) (recSize : AuditRec → Nat)
    (maxSize rotate_count : Nat) (st : AuditState) (event : String) : AuditState :=
  let st1 := if wouldRotate recSize maxSize st then rotate rotate_count st else st
  let signature := mac st1.last_hash event
  { st1 with
    main := some ((st1.main.getD []) ++ [⟨event, signature, st1.last_hash⟩])
    last_hash := signature
    event_count := st1.event_count + 1 }

/-- A sequence of `log` calls. -/
def runLog (mac : String → String → String) (recSize : AuditRec → Nat)
    (maxSize rotate_count : Nat) (st : AuditState) (evs : List String) : AuditState :=
  evs.foldl (log mac recSize maxSize rotate_count) st

/-- Decidable statement that rotation never triggers along a run. -/
def rotationFree (mac : String → String → String) (recSize : AuditRec → Nat)
    (maxSize rotate_count : Nat) : AuditState → List String → Bool
  | _, [] => true
  | st, e :: es =>
      !wouldRotate recSize maxSize st
        && rotationFree mac recSize maxSize rotate_count
             (log mac recSize maxSize rotate_count st e) es

/-- The hash chain the logger produces from running hash `p` over a payload
sequence. -/
def chainAppend (mac : String → String → String) : String → List String → List AuditRec
  | _, [] => []
  | p, e :: es => ⟨e, mac p e, p⟩ :: chainAppend mac (mac p e) es

/-- The running hash after signing a payload sequence starting from `p`. -/
def chainLast (mac : String → String → String) (p : String) (evs : List String) : String :=
  evs.foldl mac p

/-! ### Chain lemmas -/

lemma chainAppend_length (mac : String → String → String) :
    ∀ (evs : List String) (p : String), (chainAppend mac p evs).length = evs.length := by
  intro evs
  induction evs with
  | nil => intro p; rfl
  | cons e es ih => intro p; simp [chainAppend, ih]

lemma chainAppend_append (mac : String → String → String) :
    ∀ (xs ys : List String) (p : String),
      chainAppend mac p (xs ++ ys) =
        chainAppend mac p xs ++ chainAppend mac (chainLast mac p xs) ys := by
  intro xs
  induction xs with
  | nil => intro ys p; rfl
  | cons x xs ih =>
    intro ys p
    simp [chainAppend, chainLast, ih, List.foldl_cons]

/-- A chain verifies cleanly from its own starting hash. -/
lemma verifyFrom_chainAppend (mac : String → String → String) :
    ∀ (evs : List String) (n : Nat) (p : String),
      verifyFrom mac n p (chainAppend mac p evs) = [] := by
  intro evs
  induction evs with
  | nil => intro n p; rfl
  | cons e es ih =>
    intro n p
    simp [chainAppend, verifyFrom, ih]

/-- Running `prev_hash` after the verifier scans a prefix. -/
def runPrev (p : String) (xs : List AuditRec) : String :=
  xs.foldl (fun _ r => r.hmac) p

lemma runPrev_chainAppend (mac : String → String → String) :
    ∀ (evs : List String) (p : String),
      runPrev p (chainAppend mac p evs) = chainLast mac p evs := by
  intro evs
  induction evs with
  | nil => intro p; rfl
  | cons e es ih =>
    intro p
    simp [chainAppend, runPrev, chainLast, List.foldl_cons]
    simpa [runPrev, chainLast] using ih (mac p e)

lemma verifyFrom_append (mac : String → String → String) :
    ∀ (xs ys : List AuditRec) (n : Nat) (p : String),
      verifyFrom mac n p (xs ++ ys) =
        verifyFrom mac n p xs ++ verifyFrom mac (n + xs.length) (runPrev p xs) ys := by
  intro xs
  induction xs with
  | nil => intro ys n p; simp [verifyFrom, runPrev]
  | cons r xs ih =>
    intro ys n p
    simp only [List.cons_append, verifyFrom, List.append_eq]
    rw [ih]
    have harith : n + 1 + xs.length = n + (xs.length + 1) := by omega
    rw [harith]
    simp only [runPrev, List.foldl_cons, List.length_cons, List.append_assoc]

/-! ### C2: round trip -/

lemma runLog_rotationFree (mac : String → String → String) (recSize : AuditRec → Nat)
    (maxSize rotate_count : Nat) :
    ∀ (evs evs0 : List String) (st : AuditState),
      rotationFree mac recSize maxSize rotate_count st evs = true →
      st.last_hash = chainLast mac "" evs0 →
      st.main = (if evs0 = [] then none else some (chainAppend mac "" evs0)) →
      (runLog mac recSize maxSize rotate_count st evs).main =
        (if evs0 ++ evs = [] then none else some (chainAppend mac "" (evs0 ++ evs))) := by
  intro evs
  induction evs with
  | nil =>
    intro evs0 st _ _ hmain
    simpa [runLog] using hmain
  | cons e es ih =>
    intro evs0 st hrf hlast hmain
    have hrf' := hrf
    unfold rotationFree at hrf'
    obtain ⟨hnr, hrest⟩ := Bool.and_eq_true _ _ |>.mp hrf'
    have hnr' : wouldRotate recSize maxSize st = false := by
      cases hb : wouldRotate recSize maxSize st
      · rfl
      · rw [hb] at hnr; exact Bool.noConfusion hnr
    have hlog : log mac recSize maxSize rotate_count st e =
        { st with
          main := some ((st.main.getD []) ++ [⟨e, mac st.last_hash e, st.last_hash⟩])
          last_hash := mac st.last_hash e
          event_count := st.event_count + 1 } := by
      unfold log
      rw [hnr']
      rfl
    have hgetD : st.main.getD [] = chainAppend mac "" evs0 := by
      rw [hmain]
      by_cases h0 : evs0 = []
      · simp [h0, chainAppend]
      · simp [h0]
    have hmain' : (log mac recSize maxSize rotate_count st e).main =
        (if evs0 ++ [e] = [] then none else some (chainAppend mac "" (evs0 ++ [e]))) := by
      rw [hlog]
      simp only [hgetD, hlast]
      rw [chainAppend_append mac evs0 [e] ""]
      simp [chainAppend]
    have hlast' : (log mac recSize maxSize rotate_count st e).last_hash =
        chainLast mac "" (evs0 ++ [e]) := by
      rw [hlog]
      simp only [hlast]
      unfold chainLast
      rw [List.foldl_append]
      rfl
    have hres := ih (evs0 ++ [e]) (log mac recSize maxSize rotate_count st e)
      hrest hlast' hmain'
    have hassoc : evs0 ++ [e] ++ es = evs0 ++ (e :: es) := by simp
    rw [hassoc] at hres
    simpa [runLog, List.foldl_cons] using hres

/-- **C2.** For any number of events appended with `AuditLogger.log` under a
fixed HMAC key, as long as rotation never triggers, `verify_audit_log` on
the resulting store with the same key returns `(valid = true, errors = [])`;
and verifying a path whose file does not exist returns `(true, [])`. -/
theorem claim_C2_roundtrip (mac : String → String → String) (recSize : AuditRec → Nat)
    (maxSize rotate_count : Nat) (evs : List String)
    (h : rotationFree mac recSize maxSize rotate_count auditInit evs = true) :
    verify_audit_log mac ((runLog mac recSize maxSize rotate_count auditInit evs).main)
        = (true, []) ∧
      verify_audit_log mac none = (true, []) := by
  refine ⟨?_, rfl⟩
  have hmain := runLog_rotationFree mac recSize maxSize rotate_count evs [] auditInit h
    rfl rfl
  simp only [List.nil_append] at hmain
  rw [hmain]
  by_cases h0 : evs = []
  · simp [h0, verify_audit_log]
  · simp only [h0, if_false]
    have hred : verify_audit_log mac (some (chainAppend mac "" evs))
        = ((verifyFrom mac 1 "" (chainAppend mac "" evs)).isEmpty,
            verifyFrom mac 1 "" (chainAppend mac "" evs)) := rfl
    rw [hred, verifyFrom_chainAppend]
    rfl

/-! ### A concrete stand-in MAC for witnesses and counterexamples

`macDemo` plays the role of `HMAC-SHA256(key, prev_bytes || payload)` at a
fixed key: it is a concrete computable function whose outputs consist of hex
digits only (as `hexdigest()` outputs do), and it is injective on the inputs
that arise in the examples (the previous hash contains no `;`), mirroring
the collision-freeness the real HMAC provides there. -/

def hexDigit (n : Nat) : Char :=
  if n < 10 then Char.ofNat (48 + n) else Char.ofNat (87 + n)

def hexByte (c : Char) : List Char :=
  [hexDigit (c.toNat % 256 / 16), hexDigit (c.toNat % 16)]

def hexStr (s : String) : String :=
  String.mk ((s.toList.map hexByte).flatten)

def macDemo (p e : String) : String :=
  hexStr (p ++ ";" ++ e)

/-- Witness for C2 at concrete inputs: three events, no rotation, clean
verification. -/
theorem claim_C2_roundtrip_witness :
    rotationFree macDemo (fun _ => 1) 1000000 5 auditInit ["ev-a", "ev-b", "ev-c"] = true ∧
    verify_audit_log macDemo
        ((runLog macDemo (fun _ => 1) 1000000 5 auditInit ["ev-a", "ev-b", "ev-c"]).main)
      = (true, []) :=
  ⟨by decide,
    (claim_C2_roundtrip macDemo (fun _ => 1) 1000000 5 ["ev-a", "ev-b", "ev-c"] (by decide)).1⟩

/-- **C3 (code bug).** `_rotate` moves the files but never resets
`_last_hash`, so the first entry written to the fresh store after a rotation
carries the previous segment's final signature in `prev_hash` — the chain is
*not* restarted at the empty hash, contrary to the documented design, and
`verify_audit_log` of the fresh store consequently reports a broken chain at
line 1 even though nothing was tampered with.  Evaluated here at a concrete
failing input: a size threshold of 1 unit, two `log` calls (rotation fires
before the second write). -/
theorem claim_C3_rotation_does_not_reset_chain :
    (runLog macDemo (fun _ => 1) 1 5 auditInit ["a", "b"]).main
        = some [⟨"b", macDemo (macDemo "" "a") "b", macDemo "" "a"⟩] ∧
      (runLog macDemo (fun _ => 1) 1 5 auditInit ["a", "b"]).rotated.lookup 1
        = some [⟨"a", macDemo "" "a", ""⟩] ∧
      macDemo "" "a" ≠ "" ∧
      (verify_audit_log macDemo
          ((runLog macDemo (fun _ => 1) 1 5 auditInit ["a", "b"]).main)).1 = false ∧
      ((verify_audit_log macDemo
          ((runLog macDemo (fun _ => 1) 1 5 auditInit ["a", "b"]).main)).2).head?
        = some ⟨VKind.chainBroken, 1⟩ := by
  refine ⟨by decide, by decide, by decide, by decide, by decide⟩

/-! ### C4: verifier behaviour at a tampered entry -/

/-- Verifier loop as claim C4 words it — a second definition for comparison,
following the claim's sentence rather than the source: the HMAC is
recomputed over the record's *stored* `prev_hash` field (the source instead
uses the running hash). -/
def verifyFromStored (mac : String → String → String) : Nat → String → List AuditRec → List VError
  | _, _, [] => []
  | n, prev, r :: rs =>
      (if prev = r.prev_hash then [] else [⟨VKind.chainBroken, n⟩])
        ++ (if mac r.prev_hash r.event = r.hmac then [] else [⟨VKind.invalidHmac, n⟩])
        ++ verifyFromStored mac (n + 1) r.hmac rs

/-- **C4 counterexample.** Take the produced 3-entry chain and tamper with
exactly one entry: replace entry 2's `hmac` by `"00"`.  The source verifier
recomputes HMACs over the *running* hash, so it reports a second
invalid-HMAC error at line 3 — three errors in total, refuting the claim's
"one invalid-HMAC error plus at most the immediately following linkage
error" (the claim-worded verifier, recomputing over the stored `prev_hash`
field, would report exactly the two claimed errors). -/
theorem claim_C4_counterexample :
    chainAppend macDemo "" ["a", "b", "c"]
        = [⟨"a", macDemo "" "a", ""⟩,
           ⟨"b", macDemo (macDemo "" "a") "b", macDemo "" "a"⟩,
           ⟨"c", macDemo (macDemo (macDemo "" "a") "b") "c", macDemo (macDemo "" "a") "b"⟩] ∧
      macDemo (macDemo "" "a") "b" ≠ "00" ∧
      (verify_audit_log macDemo
          (some [⟨"a", macDemo "" "a", ""⟩,
                 ⟨"b", "00", macDemo "" "a"⟩,
                 ⟨"c", macDemo (macDemo (macDemo "" "a") "b") "c",
                   macDemo (macDemo "" "a") "b"⟩])).2
        = [⟨VKind.invalidHmac, 2⟩, ⟨VKind.chainBroken, 3⟩, ⟨VKind.invalidHmac, 3⟩] ∧
      verifyFromStored macDemo 1 ""
          [⟨"a", macDemo "" "a", ""⟩,
           ⟨"b", "00", macDemo "" "a"⟩,
           ⟨"c", macDemo (macDemo (macDemo "" "a") "b") "c", macDemo (macDemo "" "a") "b"⟩]
        = [⟨VKind.invalidHmac, 2⟩, ⟨VKind.chainBroken, 3⟩] := by
  refine ⟨by decide, by decide, by decide, by decide⟩

lemma verifyFrom_cons_mem (mac : String → String → String) (n : Nat) (p : String)
    (r : AuditRec) (rs : List AuditRec) (err : VError)
    (h : err ∈ verifyFrom mac n p (r :: rs)) :
    err.line = n ∨ err ∈ verifyFrom mac (n + 1) r.hmac rs := by
  simp only [verifyFrom, List.mem_append] at h
  rcases h with (h | h) | h
  · left
    split at h
    · exact absurd h (List.not_mem_nil err)
    · rw [List.mem_singleton.mp h]
  · left
    split at h
    · exact absurd h (List.not_mem_nil err)
    · rw [List.mem_singleton.mp h]
  · right
    exact h

/-- Every error the verifier reports inside a well-formed chain suffix
(whatever running hash it arrives with) sits on the suffix's first line:
after the first record the running hash re-synchronizes with the chain. -/
lemma verifyFrom_chain_mem_line (mac : String → String → String) :
    ∀ (rest : List String) (n : Nat) (q h : String) (err : VError),
      err ∈ verifyFrom mac n q (chainAppend mac h rest) → err.line = n := by
  intro rest
  cases rest with
  | nil =>
    intro n q h err hmem
    simp [chainAppend, verifyFrom] at hmem
  | cons e es =>
    intro n q h err hmem
    rcases verifyFrom_cons_mem mac n q ⟨e, mac h e, h⟩ (chainAppend mac (mac h e) es) err hmem
      with h1 | h1
    · exact h1
    · have h3 : err ∈ verifyFrom mac (n + 1) (mac h e) (chainAppend mac (mac h e) es) := h1
      rw [verifyFrom_chainAppend] at h3
      exact absurd h3 (List.not_mem_nil err)

/-- **C4 (amended).** The verifier recomputes each HMAC over the *running*
`prevHash` (which, on an intact prefix, equals the previous record's stored
`hmac`) and advances the running hash to the stored `hmac` regardless of the
outcome; consequently, replacing a single entry of a produced chain by an
arbitrary record confines all reported errors to that entry's line and the
immediately following line — tampering never cascades into errors beyond
the next record. -/
theorem claim_C4_no_cascade (mac : String → String → String) (evs : List String)
    (i : Nat) (r' : AuditRec) (hi : i < evs.length) :
    ∀ err ∈ (verify_audit_log mac
        (some ((chainAppend mac "" evs).take i
          ++ r' :: (chainAppend mac "" evs).drop (i + 1)))).2,
      err.line = i + 1 ∨ err.line = i + 2 := by
  intro err hmem
  have hsplit : evs = evs.take i ++ evs[i] :: evs.drop (i + 1) := by
    conv_lhs => rw [← List.take_append_drop i evs]
    rw [List.drop_eq_getElem_cons hi]
  set A := chainAppend mac "" (evs.take i) with hA
  set ph := chainLast mac "" (evs.take i) with hph
  set B := chainAppend mac (mac ph evs[i]) (evs.drop (i + 1)) with hB
  have hL : chainAppend mac "" evs = A ++ ⟨evs[i], mac ph evs[i], ph⟩ :: B := by
    conv_lhs => rw [hsplit]
    rw [chainAppend_append]
    rfl
  have hlenA : A.length = i := by
    rw [hA, chainAppend_length, List.length_take]
    exact min_eq_left hi.le
  have htake : (chainAppend mac "" evs).take i = A := by
    rw [hL]
    exact List.take_left' hlenA
  have hdrop : (chainAppend mac "" evs).drop (i + 1) = B := by
    rw [hL]
    have hx : A ++ ⟨evs[i], mac ph evs[i], ph⟩ :: B
        = (A ++ [(⟨evs[i], mac ph evs[i], ph⟩ : AuditRec)]) ++ B := by
      simp
    rw [hx]
    refine List.drop_left' ?_
    simp [hlenA]
  rw [htake, hdrop] at hmem
  have hm2 : err ∈ verifyFrom mac 1 "" (A ++ r' :: B) := hmem
  rw [verifyFrom_append, hlenA] at hm2
  have hvA : verifyFrom mac 1 "" A = [] := by
    rw [hA]
    exact verifyFrom_chainAppend mac (evs.take i) 1 ""
  have hrunA : runPrev "" A = ph := by
    rw [hA, hph]
    exact runPrev_chainAppend mac (evs.take i) ""
  rw [hvA, hrunA, List.nil_append] at hm2
  rcases verifyFrom_cons_mem mac (1 + i) ph r' B err hm2 with h | h
  · left
    omega
  · rw [hB] at h
    have hline := verifyFrom_chain_mem_line mac (evs.drop (i + 1)) (1 + i + 1) r'.hmac
      (mac ph evs[i]) err h
    right
    omega

/-- Witness for the amended C4 at a concrete input: entry 1 (index 0) of a
2-entry produced chain replaced wholesale; all errors sit on lines 1 and 2. -/
theorem claim_C4_no_cascade_witness :
    0 < (["a", "b"] : List String).length ∧
      ∀ err ∈ (verify_audit_log macDemo
          (some ((chainAppend macDemo "" ["a", "b"]).take 0
            ++ (⟨"x", "00", "beef"⟩ : AuditRec)
              :: (chainAppend macDemo "" ["a", "b"]).drop 1))).2,
        err.line = 0 + 1 ∨ err.line = 0 + 2 :=
  ⟨by decide, claim_C4_no_cascade macDemo ["a", "b"] 0 ⟨"x", "00", "beef"⟩ (by decide)⟩

/-! ## Globbing (`fnmatch` from the Python standard library)

`PolicyEngine._pattern_matches` delegates to `fnmatch.fnmatch`, modelled
here by compiling the pattern to tokens exactly as `fnmatch.translate`
understands them: `*` matches any (possibly empty) sequence of characters
(including `/`), `?` any single character, `[...]` a character class with
ranges and `!`-negation (an unterminated `[` is a literal), anything else a
literal.  `os.path.normcase` is the identity on POSIX, so no case folding
happens. -/

inductive GlobTok where
  | star
  | anyChar
  | cls (neg : Bool) (items : List (Char × Char))
  | lit (c : Char)
deriving DecidableEq, Repr

/-- Split a class body at its first `]`, returning the body and the rest. -/
def splitBody : List Char → Option (List Char × List Char)
  | [] => none
  | c :: r => if c = ']' then some ([], r) else (splitBody r).map (fun br => (c :: br.1, br.2))

/-- Class items: `a-b` ranges and singletons; a trailing `-` is a literal. -/
def clsItems : List Char → List (Char × Char)
  | [] => []
  | a :: '-' :: b :: r => (a, b) :: clsItems r
  | a :: r => (a, a) :: clsItems r

/-- Consume the optional `!` negation marker after `[`. -/
def stripNeg : List Char → Bool × List Char
  | [] => (false, [])
  | c :: r => if c = '!' then (true, r) else (false, c :: r)

/-- A `]` directly after `[` (or after `[!`) belongs to the class body. -/
def stripLead : List Char → List Char × List Char
  | [] => ([], [])
  | c :: r => if c = ']' then ([']'], r) else ([], c :: r)

/-- Parse the part of a pattern after `[`: optional `!` negation, a body in
which a leading `]` is literal, closed by the next `]`; `none` when no
closing `]` exists (then the `[` is a literal). -/
def parseCls (rest : List Char) : Option (Bool × List (Char × Char) × List Char) :=
  let n := stripNeg rest
  let l := stripLead n.2
  (splitBody l.2).map (fun br => (n.1, clsItems (l.1 ++ br.1), br.2))

lemma splitBody_length_lt : ∀ (cs b r : List Char), splitBody cs = some (b, r) →
    r.length < cs.length := by
  intro cs
  induction cs with
  | nil => intro b r h; exact Option.noConfusion h
  | cons c cr ih =>
    intro b r h
    by_cases hc : c = ']'
    · simp only [splitBody, if_pos hc, Option.some.injEq, Prod.mk.injEq] at h
      rw [← h.2]
      exact Nat.lt_succ_self _
    · simp only [splitBody, if_neg hc] at h
      rcases Option.map_eq_some'.mp h with ⟨⟨b', r'⟩, hsb, hbr⟩
      have hr : r' = r := congrArg Prod.snd hbr
      have h1 := ih b' r' hsb
      rw [← hr]
      exact Nat.lt_trans h1 (Nat.lt_succ_self _)

lemma stripNeg_length (cs : List Char) : (stripNeg cs).2.length ≤ cs.length := by
  cases cs with
  | nil => exact Nat.le_refl 0
  | cons c r =>
    by_cases hc : c = '!'
    · simp [stripNeg, hc]
    · simp [stripNeg, hc]

lemma stripLead_length (cs : List Char) : (stripLead cs).2.length ≤ cs.length := by
  cases cs with
  | nil => exact Nat.le_refl 0
  | cons c r =>
    by_cases hc : c = ']'
    · simp [stripLead, hc]
    · simp [stripLead, hc]

lemma parseCls_length_lt (rest : List Char) (neg : Bool) (items : List (Char × Char))
    (rest' : List Char) (h : parseCls rest = some (neg, items, rest')) :
    rest'.length < rest.length + 1 := by
  unfold parseCls at h
  rcases Option.map_eq_some'.mp h with ⟨⟨b', r'⟩, hsb, hbr⟩
  have hr : r' = rest' := congrArg (fun x => x.2.2) hbr
  have h1 := splitBody_length_lt _ b' r' hsb
  have h2 := stripLead_length (stripNeg rest).2
  have h3 := stripNeg_length rest
  rw [← hr]
  omega

/-- The pattern scan, bounded by a step count.  Every iteration consumes at
least one character of the pattern (for a parsed class, `parseCls_length_lt`
above: the remainder is strictly shorter than what follows the `[`), so
`cs.length` steps always suffice and the bound below is never the limiting
factor; it only makes the recursion structural. -/
def parseGlobF : Nat → List Char → List GlobTok
  | 0, _ => []
  | _ + 1, [] => []
  | fuel + 1, '*' :: rest => GlobTok.star :: parseGlobF fuel rest
  | fuel + 1, '?' :: rest => GlobTok.anyChar :: parseGlobF fuel rest
  | fuel + 1, '[' :: rest =>
      match parseCls rest with
      | some (neg, items, rest') => GlobTok.cls neg items :: parseGlobF fuel rest'
      | none => GlobTok.lit '[' :: parseGlobF fuel rest
  | fuel + 1, c :: rest => GlobTok.lit c :: parseGlobF fuel rest

def parseGlob (cs : List Char) : List GlobTok :=
  parseGlobF cs.length cs

/-- Membership in a character class: inside any of its ranges. -/
def clsMem (items : List (Char × Char)) (c : Char) : Bool :=
  items.any (fun ab => ab.1 ≤ c && c ≤ ab.2)

/-- A `*` tries the continuation on every suffix of the target (empty match
first, then consuming one character at a time). -/
def starMatch (f : List Char → Bool) : List Char → Bool
  | [] => f []
  | c :: ts => f (c :: ts) || starMatch f ts

/-- Matching of a token list against the target (the translated regex is
fully anchored, so both lists must be consumed). -/
def tokMatch : List GlobTok → List Char → Bool
  | [], ts => ts.isEmpty
  | GlobTok.star :: ps, ts => starMatch (tokMatch ps) ts
  | GlobTok.anyChar :: ps, ts =>
      match ts with
      | [] => false
      | _ :: ts' => tokMatch ps ts'
  | GlobTok.cls neg items :: ps, ts =>
      match ts with
      | [] => false
      | c :: ts' => (clsMem items c != neg) && tokMatch ps ts'
  | GlobTok.lit a :: ps, ts =>
      match ts with
      | [] => false
      | c :: ts' => (a == c) && tokMatch ps ts'

/-- `fnmatch.fnmatch(name, pattern)` (POSIX `normcase` is the identity). -/
def fnmatch (name pat : String) : Bool :=
  tokMatch (parseGlob pat.toList) name.toList

/-! ## Policy engine (`simstim/policies/engine.py`) -/

/-- `Policy` as configured: name, enabled flag, action kind, glob pattern,
maximum acceptable risk (all strings, as in the config model). -/
structure Policy where
  name : String
  enabled : Bool
  action : String
  pattern : String
  max_risk : String
deriving DecidableEq, Repr

/-- The three `PolicyMatch` shapes the engine constructs (the dataclass's
`matched` flag and `decision` are determined by the constructor used:
`auto_approved` ⇒ matched/AUTO_APPROVE, `risk_exceeded` and `no_match` ⇒
unmatched/REQUIRE_MANUAL). -/
inductive PolicyMatch where
  | auto_approved (policy : Policy) (reason : String)
  | risk_exceeded (policy : Policy) (reason : String)
  | no_match (reason : String)
deriving DecidableEq, Repr

/-- `pattern[:start]`, `pattern[start+1:end]`, `pattern[end+1:]` of
`_pattern_matches`, with `start`/`end` the first indices of `{` and `}`.
Python `str.index` position of the first occurrence. -/
def firstIdx : List Char → Char → Nat
  | [], _ => 0
  | d :: r, c => if d = c then 0 else firstIdx r c + 1

/-- Python `"s".split(",")`: always at least one (possibly empty) piece. -/
def splitOnComma : List Char → List (List Char)
  | [] => [[]]
  | c :: r =>
      if c = ',' then [] :: splitOnComma r
      else
        match splitOnComma r with
        | [] => [[c]]
        | g :: gs => (c :: g) :: gs

/-- Python `str.strip()` (whitespace on both ends; ASCII-identical to
`Char.isWhitespace`). -/
def pyStrip (cs : List Char) : List Char :=
  ((cs.dropWhile Char.isWhitespace).reverse.dropWhile Char.isWhitespace).reverse

/-- `PolicyEngine._pattern_matches`: brace alternation
`pre{a,b,...}suf` is the union of `fnmatch` over `pre ++ strip(alt) ++ suf`;
otherwise a plain `fnmatch`. -/
def patternMatches (pattern target : String) : Bool :=
  if pattern.toList.contains '{' ∧ pattern.toList.contains '}' then
    let ps := pattern.toList
    let s := firstIdx ps '{'
    let e := firstIdx ps '}'
    let pre := ps.take s
    let suf := ps.drop (e + 1)
    let alternatives := splitOnComma ((ps.take e).drop (s + 1))
    alternatives.any (fun alt => fnmatch target (String.mk (pre ++ pyStrip alt ++ suf)))
  else
    fnmatch target pattern

/-- `RISK_ORDER` (lower index = lower risk). -/
def RISK_ORDER : List String := ["low", "medium", "high", "critical"]

/-- Python `list.index` returning `none` instead of raising `ValueError`
(the source catches it and answers `False`). -/
def listIndex : List String → String → Option Nat
  | [], _ => none
  | a :: r, x => if a = x then some 0 else (listIndex r x).map (· + 1)

/-- `PolicyEngine._risk_acceptable`: `actual ≤ max` on `RISK_ORDER` indices
after lowercasing; any unknown level means no auto-approval. -/
def riskAcceptable (max_risk actual_risk : String) : Bool :=
  match listIndex RISK_ORDER max_risk.toLower, listIndex RISK_ORDER actual_risk.toLower with
  | some maxIdx, some actualIdx => decide (actualIdx ≤ maxIdx)
  | _, _ => false

/-- The matching loop of `PolicyEngine.evaluate` over the engine's (already
enabled-filtered) policy list: skip on action mismatch, skip on pattern
mismatch, then decide on the risk comparison and stop. -/
def evalLoop (action target risk : String) : List Policy → PolicyMatch
  | [] => PolicyMatch.no_match "No matching policy"
  | p :: rest =>
      if p.action ≠ action then evalLoop action target risk rest
      else if ¬ patternMatches p.pattern target then evalLoop action target risk rest
      else if ¬ riskAcceptable p.max_risk risk then
        PolicyMatch.risk_exceeded p ("Risk " ++ risk ++ " exceeds policy max " ++ p.max_risk)
      else
        PolicyMatch.auto_approved p ("Matched policy: " ++ p.name)

/-- `PolicyEngine.evaluate` (the `PolicyEvaluationResult` wrapper adds only
observability metadata — timestamps and the evaluation counter — around this
match; `__init__` keeps only enabled policies). -/
def evaluate (policies : List Policy) (action target risk : String) : PolicyMatch :=
  evalLoop action target risk (policies.filter (fun p => p.enabled))

lemma evalLoop_eq_find (action target risk : String) :
    ∀ l : List Policy,
      evalLoop action target risk l =
        match l.find? (fun p => p.action == action && patternMatches p.pattern target) with
        | some p =>
            if riskAcceptable p.max_risk risk then
              PolicyMatch.auto_approved p ("Matched policy: " ++ p.name)
            else
              PolicyMatch.risk_exceeded p
                ("Risk " ++ risk ++ " exceeds policy max " ++ p.max_risk)
        | none => PolicyMatch.no_match "No matching policy" := by
  intro l
  induction l with
  | nil => rfl
  | cons p rest ih =>
    by_cases ha : p.action = action
    · by_cases hp : patternMatches p.pattern target = true
      · have hfind : (p :: rest).find?
            (fun p => p.action == action && patternMatches p.pattern target) = some p := by
          rw [List.find?_cons_of_pos]
          simp [ha, hp]
        rw [hfind]
        by_cases hr : riskAcceptable p.max_risk risk = true
        · simp [evalLoop, ha, hp, hr]
        · simp [evalLoop, ha, hp, hr]
      · have hfind : (p :: rest).find?
            (fun p => p.action == action && patternMatches p.pattern target)
              = rest.find? (fun p => p.action == action && patternMatches p.pattern target) := by
          rw [List.find?_cons_of_neg]
          simp [hp]
        rw [hfind, ← ih]
        simp [evalLoop, ha, hp]
    · have hfind : (p :: rest).find?
          (fun p => p.action == action && patternMatches p.pattern target)
            = rest.find? (fun p => p.action == action && patternMatches p.pattern target) := by
        rw [List.find?_cons_of_neg]
        simp [ha]
      rw [hfind, ← ih]
      simp [evalLoop, ha]

/-- **C6.** Policy evaluation is first-match-wins over the enabled rules in
list order: the first enabled rule whose action equals the request's action
and whose pattern matches the target determines the outcome — auto-approve
when the risk check passes, risk-exceeded when it fails — and evaluation
never falls through past that rule; with no such rule the result is
no-match. -/
theorem claim_C6_first_match_wins (policies : List Policy) (action target risk : String) :
    evaluate policies action target risk =
      match (policies.filter (fun p => p.enabled)).find?
          (fun p => p.action == action && patternMatches p.pattern target) with
      | some p =>
          if riskAcceptable p.max_risk risk then
            PolicyMatch.auto_approved p ("Matched policy: " ++ p.name)
          else
            PolicyMatch.risk_exceeded p
              ("Risk " ++ risk ++ " exceeds policy max " ++ p.max_risk)
      | none => PolicyMatch.no_match "No matching policy" :=
  evalLoop_eq_find action target risk (policies.filter (fun p => p.enabled))

/-- **C9.** Brace alternation expands to the union of per-alternative glob
matches against the same target: for every target, `*.{ts,tsx}` matches
exactly when `*.ts` or `*.tsx` does; in particular it matches `index.ts`
and `Button.tsx` but not `script.py`. -/
theorem claim_C9_brace_alternation :
    (∀ t : String, patternMatches "*.\x7bts,tsx\x7d" t
        = (fnmatch t "*.ts" || fnmatch t "*.tsx")) ∧
      patternMatches "*.\x7bts,tsx\x7d" "index.ts" = true ∧
      patternMatches "*.\x7bts,tsx\x7d" "Button.tsx" = true ∧
      patternMatches "*.\x7bts,tsx\x7d" "script.py" = false := by
  refine ⟨?_, by decide, by decide, by decide⟩
  intro t
  show (fnmatch t "*.ts" || (fnmatch t "*.tsx" || false))
      = (fnmatch t "*.ts" || fnmatch t "*.tsx")
  cases fnmatch t "*.ts" <;> cases fnmatch t "*.tsx" <;> rfl

/-! ## Callback signer (`simstim/security/crypto.py`)

The HMAC-plus-encoding pipeline at a fixed key —
`base64.urlsafe_b64encode(hmac.new(key, msg, sha256).digest()[:16])` with
padding stripped — is abstracted as a function `sigEnc : String → String` of
the signed message.  `verify` re-pads and base64-decodes the received
signature and `compare_digest`s it against the recomputed truncated digest;
since decoding after re-padding inverts the encoding, that comparison
succeeds exactly when the received string equals the encoding of the
recomputed digest, which is how it is modelled.  `str(timestamp)` /
`int(timestamp_str)` are modelled by an explicit decimal renderer/parser
pair (`int()` additionally accepts surrounding whitespace and a sign, which
the parser mirrors; underscored digit groups are not modelled — none can
appear in a produced token). -/

def digitChar (m : Nat) : Char := Char.ofNat (48 + m)

/-- Decimal digits of `n`, most significant first, computed with an explicit
step bound (one digit is produced per step, so `n + 1` steps always
suffice — the bound only makes the recursion structural). -/
def natDecAux : Nat → Nat → List Char
  | 0, _ => []
  | fuel + 1, n =>
      if n < 10 then [digitChar n]
      else natDecAux fuel (n / 10) ++ [digitChar (n % 10)]

def natDec (n : Nat) : List Char := natDecAux (n + 1) n

/-- Python `str(i)` for an `int`. -/
def intDec (i : Int) : List Char :=
  if i < 0 then '-' :: natDec (-i).toNat else natDec i.toNat

/-- Value of a digit string (most significant first). -/
def digitsVal (cs : List Char) : Nat :=
  cs.foldl (fun a c => a * 10 + (c.toNat - 48)) 0

/-- Digits-only body of Python `int(s)` (empty or non-digit input raises
`ValueError`, which the caller turns into `None`). -/
def parsePyNat (cs : List Char) : Option Nat :=
  if cs ≠ [] ∧ cs.all Char.isDigit then some (digitsVal cs) else none

/-- Python `int(s)`: strip whitespace, optional sign, decimal digits. -/
def parsePyInt (cs : List Char) : Option Int :=
  match pyStrip cs with
  | [] => none
  | c :: r =>
      if c = '-' then (parsePyNat r).map (fun n => -(n : Int))
      else if c = '+' then (parsePyNat r).map (fun n => ((n : Int)))
      else (parsePyNat (c :: r)).map (fun n => ((n : Int)))

/-- `SignedCallbackData` as in the source (`NamedTuple`). -/
structure SignedCallbackData where
  payload : String
  timestamp : Int
  signature : String
deriving DecidableEq, Repr

/-- `CallbackSigner.sign`: `"payload|timestamp|signature"`. -/
def sign (sigEnc : String → String) (payload : String) (now : Int) : String :=
  payload ++ "|" ++ String.mk (intDec now)
    ++ "|" ++ sigEnc (payload ++ "|" ++ String.mk (intDec now))

/-- Split at the first occurrence of `sep`. -/
def breakFirst (sep : Char) : List Char → Option (List Char × List Char)
  | [] => none
  | c :: cs =>
      if c = sep then some ([], cs)
      else (breakFirst sep cs).map (fun ab => (c :: ab.1, ab.2))

/-- Split at the last occurrence of `sep`. -/
def breakLast (sep : Char) (s : List Char) : Option (List Char × List Char) :=
  (breakFirst sep s.reverse).map (fun ab => (ab.2.reverse, ab.1.reverse))

/-- `signed_data.rsplit("|", 2)` when it yields three parts (`None` result
models the `len(parts) != 3` rejection). -/
def rsplitTwo (s : List Char) : Option (List Char × List Char × List Char) :=
  match breakLast '|' s with
  | none => none
  | some (rest, sig) =>
      match breakLast '|' rest with
      | none => none
      | some (p, ts) => some (p, ts, sig)

/-- Body of `CallbackSigner.verify` after the three-way split: parse the
timestamp (`ValueError` → invalid), reject stale or future-dated tokens,
then compare the recomputed signature in constant time. -/
def verifyParsed (sigEnc : String → String) (now max_age : Int)
    (p tsStr sig : List Char) : Option SignedCallbackData :=
  match parsePyInt tsStr with
  | none => none
  | some timestamp =>
      if now - timestamp > max_age then none
      else if timestamp > now + 60 then none
      else
        let message := String.mk p ++ "|" ++ String.mk tsStr
        if sigEnc message = String.mk sig then
          some ⟨String.mk p, timestamp, String.mk sig⟩
        else none

/-- `CallbackSigner.verify`: split off the last two `|`-fields (rejecting a
malformed token), then check freshness and signature. -/
def verify (sigEnc : String → String) (signed_data : String) (now max_age : Int) :
    Option SignedCallbackData :=
  match rsplitTwo signed_data.toList with
  | none => none
  | some (p, tsStr, sig) => verifyParsed sigEnc now max_age p tsStr sig

/-! ### Decimal round trip and splitting lemmas -/

lemma digitChar_isDigit (m : Nat) (h : m < 10) : (digitChar m).isDigit = true := by
  interval_cases m <;> decide

lemma digitChar_toNat (m : Nat) (h : m < 10) : (digitChar m).toNat = 48 + m := by
  interval_cases m <;> decide

lemma isDigit_facts (c : Char) (h : c.isDigit = true) :
    c.isWhitespace = false ∧ c ≠ '|' ∧ c ≠ '-' ∧ c ≠ '+' := by
  refine ⟨?_, ?_, ?_, ?_⟩
  · cases hw : c.isWhitespace
    · rfl
    · simp only [Char.isWhitespace, Bool.or_eq_true, decide_eq_true_eq] at hw
      rcases hw with ((rfl | rfl) | rfl) | rfl <;> exact absurd h (by decide)
  · intro hc; subst hc; exact absurd h (by decide)
  · intro hc; subst hc; exact absurd h (by decide)
  · intro hc; subst hc; exact absurd h (by decide)

lemma digitsVal_snoc (xs : List Char) (c : Char) :
    digitsVal (xs ++ [c]) = digitsVal xs * 10 + (c.toNat - 48) := by
  unfold digitsVal
  rw [List.foldl_append]
  rfl

lemma natDecAux_spec :
    ∀ (fuel n : Nat), n < fuel →
      natDecAux fuel n ≠ [] ∧ (∀ c ∈ natDecAux fuel n, c.isDigit = true) ∧
        digitsVal (natDecAux fuel n) = n := by
  intro fuel
  induction fuel with
  | zero => intro n h; exact absurd h (Nat.not_lt_zero n)
  | succ fuel ih =>
    intro n h
    by_cases h10 : n < 10
    · unfold natDecAux
      rw [if_pos h10]
      refine ⟨by simp, ?_, ?_⟩
      · intro c hc
        rw [List.mem_singleton.mp hc]
        exact digitChar_isDigit n h10
      · show digitsVal ([] ++ [digitChar n]) = n
        rw [digitsVal_snoc, digitChar_toNat n h10]
        simp [digitsVal]
    · unfold natDecAux
      rw [if_neg h10]
      have hdiv : n / 10 < fuel := by omega
      obtain ⟨hne, hdig, hval⟩ := ih (n / 10) hdiv
      have hmod : n % 10 < 10 := Nat.mod_lt n (by omega)
      refine ⟨by simp, ?_, ?_⟩
      · intro c hc
        rcases List.mem_append.mp hc with hc | hc
        · exact hdig c hc
        · rw [List.mem_singleton.mp hc]
          exact digitChar_isDigit _ hmod
      · rw [digitsVal_snoc, hval, digitChar_toNat _ hmod]
        omega

lemma natDec_spec (n : Nat) :
    natDec n ≠ [] ∧ (∀ c ∈ natDec n, c.isDigit = true) ∧ digitsVal (natDec n) = n :=
  natDecAux_spec (n + 1) n (Nat.lt_succ_self n)

lemma dropWhile_eq_self_of_all (p : Char → Bool) (cs : List Char)
    (h : ∀ c ∈ cs, p c = false) : cs.dropWhile p = cs := by
  cases cs with
  | nil => rfl
  | cons c r =>
    rw [List.dropWhile_cons, h c (List.mem_cons_self c r)]
    simp

lemma pyStrip_eq_self (cs : List Char) (h : ∀ c ∈ cs, c.isWhitespace = false) :
    pyStrip cs = cs := by
  unfold pyStrip
  rw [dropWhile_eq_self_of_all _ _ h]
  rw [dropWhile_eq_self_of_all _ _ (fun c hc => h c (List.mem_reverse.mp hc))]
  exact List.reverse_reverse cs

lemma parsePyNat_of_digits (cs : List Char) (hne : cs ≠ [])
    (hdig : ∀ c ∈ cs, c.isDigit = true) : parsePyNat cs = some (digitsVal cs) := by
  unfold parsePyNat
  rw [if_pos ⟨hne, List.all_eq_true.mpr hdig⟩]

lemma parsePyInt_of_digits (cs : List Char) (hne : cs ≠ [])
    (hdig : ∀ c ∈ cs, c.isDigit = true) :
    parsePyInt cs = some ((digitsVal cs : Nat) : Int) := by
  have hstrip : pyStrip cs = cs :=
    pyStrip_eq_self cs (fun c hc => (isDigit_facts c (hdig c hc)).1)
  cases cs with
  | nil => exact absurd rfl hne
  | cons c r =>
    obtain ⟨-, -, hm, hp⟩ := isDigit_facts c (hdig c (List.mem_cons_self c r))
    unfold parsePyInt
    rw [hstrip]
    simp only [if_neg hm, if_neg hp]
    rw [parsePyNat_of_digits _ hne hdig]
    rfl

lemma parsePyInt_neg_of_digits (cs : List Char) (hne : cs ≠ [])
    (hdig : ∀ c ∈ cs, c.isDigit = true) :
    parsePyInt ('-' :: cs) = some (-((digitsVal cs : Nat) : Int)) := by
  have hstrip : pyStrip ('-' :: cs) = '-' :: cs := by
    refine pyStrip_eq_self _ ?_
    intro c hc
    rcases List.mem_cons.mp hc with rfl | hc
    · decide
    · exact (isDigit_facts c (hdig c hc)).1
  unfold parsePyInt
  rw [hstrip]
  simp only [if_pos rfl]
  rw [parsePyNat_of_digits _ hne hdig]
  rfl

lemma parsePyInt_intDec (i : Int) : parsePyInt (intDec i) = some i := by
  by_cases hi : i < 0
  · obtain ⟨hne, hdig, hval⟩ := natDec_spec (-i).toNat
    unfold intDec
    rw [if_pos hi, parsePyInt_neg_of_digits _ hne hdig, hval]
    have : ((((-i).toNat : Nat) : Int)) = -i := Int.toNat_of_nonneg (by omega)
    rw [this]
    simp
  · obtain ⟨hne, hdig, hval⟩ := natDec_spec i.toNat
    unfold intDec
    rw [if_neg hi, parsePyInt_of_digits _ hne hdig, hval]
    have : (((i.toNat : Nat) : Int)) = i := Int.toNat_of_nonneg (by omega)
    rw [this]

lemma intDec_ne_bar (i : Int) : ∀ c ∈ intDec i, c ≠ '|' := by
  intro c hc
  unfold intDec at hc
  by_cases hi : i < 0
  · rw [if_pos hi] at hc
    rcases List.mem_cons.mp hc with rfl | hc
    · decide
    · exact (isDigit_facts c ((natDec_spec (-i).toNat).2.1 c hc)).2.1
  · rw [if_neg hi] at hc
    exact (isDigit_facts c ((natDec_spec i.toNat).2.1 c hc)).2.1

lemma breakFirst_append_of_no_sep (sep : Char) :
    ∀ (a b : List Char), (∀ c ∈ a, c ≠ sep) →
      breakFirst sep (a ++ sep :: b) = some (a, b) := by
  intro a
  induction a with
  | nil =>
    intro b _
    simp [breakFirst]
  | cons c a' ih =>
    intro b h
    have hc : c ≠ sep := h c (List.mem_cons_self c a')
    simp only [List.cons_append, breakFirst, if_neg hc, List.append_eq]
    rw [ih b (fun x hx => h x (List.mem_cons_of_mem c hx))]
    rfl

lemma breakLast_append_of_no_sep (a b : List Char) (h : ∀ c ∈ b, c ≠ '|') :
    breakLast '|' (a ++ '|' :: b) = some (a, b) := by
  unfold breakLast
  have hrev : (a ++ '|' :: b).reverse = b.reverse ++ '|' :: a.reverse := by
    simp
  rw [hrev, breakFirst_append_of_no_sep '|' b.reverse a.reverse
    (fun c hc => h c (List.mem_reverse.mp hc))]
  simp

lemma rsplitTwo_token (p ts sg : List Char) (hts : ∀ c ∈ ts, c ≠ '|')
    (hsg : ∀ c ∈ sg, c ≠ '|') :
    rsplitTwo (p ++ '|' :: (ts ++ '|' :: sg)) = some (p, ts, sg) := by
  unfold rsplitTwo
  have hassoc : p ++ '|' :: (ts ++ '|' :: sg) = (p ++ '|' :: ts) ++ '|' :: sg := by
    simp
  rw [hassoc, breakLast_append_of_no_sep _ _ hsg]
  show (match breakLast '|' (p ++ '|' :: ts) with
        | none => none
        | some (a, b) => some (a, b, sg)) = some (p, ts, sg)
  rw [breakLast_append_of_no_sep _ _ hts]

lemma verify_eq_parsed (sigEnc : String → String) (s : String) (now max_age : Int)
    (p tsStr sig : List Char) (h : rsplitTwo s.toList = some (p, tsStr, sig)) :
    verify sigEnc s now max_age = verifyParsed sigEnc now max_age p tsStr sig := by
  unfold verify
  rw [h]

lemma verifyParsed_eq (sigEnc : String → String) (now max_age t : Int)
    (p tsStr sig : List Char) (hts : parsePyInt tsStr = some t) :
    verifyParsed sigEnc now max_age p tsStr sig
      = if now - t > max_age then none
        else if t > now + 60 then none
        else if sigEnc (String.mk p ++ "|" ++ String.mk tsStr) = String.mk sig then
          some ⟨String.mk p, t, String.mk sig⟩
        else none := by
  unfold verifyParsed
  rw [hts]

lemma verify_sign_eq (sigEnc : String → String) (payload : String) (t now max_age : Int)
    (hsig : ∀ c ∈ (sigEnc (payload ++ "|" ++ String.mk (intDec t))).toList, c ≠ '|') :
    verify sigEnc (sign sigEnc payload t) now max_age
      = if now - t > max_age then none
        else if t > now + 60 then none
        else some ⟨payload, t, sigEnc (payload ++ "|" ++ String.mk (intDec t))⟩ := by
  have htoList : (sign sigEnc payload t).toList
      = payload.toList ++ '|' :: (intDec t ++ '|'
          :: (sigEnc (payload ++ "|" ++ String.mk (intDec t))).toList) := by
    unfold sign
    simp [String.toList, String.data_append]
  rw [verify_eq_parsed sigEnc _ now max_age payload.toList (intDec t)
    (sigEnc (payload ++ "|" ++ String.mk (intDec t))).toList
    (by rw [htoList]; exact rsplitTwo_token _ _ _ (intDec_ne_bar t) hsig)]
  rw [verifyParsed_eq sigEnc now max_age t _ _ _ (parsePyInt_intDec t)]
  rw [if_pos (show sigEnc (String.mk payload.toList ++ "|" ++ String.mk (intDec t))
      = String.mk (sigEnc (payload ++ "|" ++ String.mk (intDec t))).toList from rfl)]
  rfl

/-- **C7.** `verify(sign(payload))` at the same clock instant returns the
original payload (with the token's timestamp and signature); a token whose
age exceeds `max_age` is rejected even though its signature is correct, and
so is a token whose timestamp lies more than 60 seconds in the future.  The
hypotheses state that the encoded signature contains no `|` (true of base64
output, which `rsplit` relies on). -/
theorem claim_C7_sign_verify (sigEnc : String → String) (payload : String)
    (now ts max_age : Int)
    (hnow : ∀ c ∈ (sigEnc (payload ++ "|" ++ String.mk (intDec now))).toList, c ≠ '|')
    (hts : ∀ c ∈ (sigEnc (payload ++ "|" ++ String.mk (intDec ts))).toList, c ≠ '|') :
    (0 ≤ max_age →
      verify sigEnc (sign sigEnc payload now) now max_age
        = some ⟨payload, now, sigEnc (payload ++ "|" ++ String.mk (intDec now))⟩) ∧
    (now - ts > max_age → verify sigEnc (sign sigEnc payload ts) now max_age = none) ∧
    (ts > now + 60 → verify sigEnc (sign sigEnc payload ts) now max_age = none) := by
  refine ⟨?_, ?_, ?_⟩
  · intro hage
    rw [verify_sign_eq sigEnc payload now now max_age hnow]
    rw [if_neg (by omega), if_neg (by omega)]
  · intro hstale
    rw [verify_sign_eq sigEnc payload ts now max_age hts]
    rw [if_pos hstale]
  · intro hfuture
    rw [verify_sign_eq sigEnc payload ts now max_age hts]
    by_cases hstale : now - ts > max_age
    · rw [if_pos hstale]
    · rw [if_neg hstale, if_pos hfuture]

/-- Witness for C7 at concrete values (`hexStr` as the encoded-signature
function: hex output, so never a `|`): fresh round trip, stale rejection,
future-dated rejection. -/
theorem claim_C7_sign_verify_witness :
    verify hexStr (sign hexStr "approve:req-1" 1000) 1000 300
        = some ⟨"approve:req-1", 1000,
            hexStr ("approve:req-1" ++ "|" ++ String.mk (intDec 1000))⟩ ∧
      verify hexStr (sign hexStr "approve:req-1" 600) 1000 300 = none ∧
      verify hexStr (sign hexStr "approve:req-1" 1100) 1000 300 = none := by
  refine ⟨?_, ?_, ?_⟩
  · exact (claim_C7_sign_verify hexStr "approve:req-1" 1000 1000 300
      (by decide) (by decide)).1 (by decide)
  · exact (claim_C7_sign_verify hexStr "approve:req-1" 1000 600 300
      (by decide) (by decide)).2.1 (by decide)
  · exact (claim_C7_sign_verify hexStr "approve:req-1" 1000 1100 300
      (by decide) (by decide)).2.2 (by decide)

/-! ## Rate limiter (`simstim/bridge/rate_limiter.py`)

`datetime` instants are rationals; the float backoff parameters are
rationals (every value the formula produces from well-representable inputs
is exact).  `record_denial` calls `datetime.now()` twice a few nanoseconds
apart (for `last_denial` and for the backoff start); both readings are
modelled as the single instant `now`. -/

structure UserRateState where
  request_times : List ℚ
  denial_count : Nat
  last_denial : Option ℚ
  backoff_until : Option ℚ
deriving DecidableEq, Repr

/-- `RateLimiter.record_denial`: increment the count, stamp the denial, and
— when the incremented count has reached the threshold — set
`backoff_until = now + min(base * 2^(count - threshold), max)` (the source
mutates `denial_count` first and then tests it, so the test sees the
incremented count). -/
def record_denial (denial_backoff_base denial_backoff_max : ℚ) (denial_threshold : Nat)
    (now : ℚ) (st : UserRateState) : UserRateState :=
  if st.denial_count + 1 ≥ denial_threshold then
    { st with
      denial_count := st.denial_count + 1
      last_denial := some now
      backoff_until := some (now +
        min (denial_backoff_base * 2 ^ (st.denial_count + 1 - denial_threshold))
          denial_backoff_max) }
  else
    { st with denial_count := st.denial_count + 1, last_denial := some now }

/-- `RateLimiter.record_approval`: reset the denial count and clear the
backoff. -/
def record_approval (st : UserRateState) : UserRateState :=
  { st with denial_count := 0, backoff_until := none }

/-- **C8.** Every `record_denial` increments the denial count; once the new
count has reached the threshold it sets the backoff expiry to
`now + min(base * 2^(count - threshold), max)` — exponential growth with a
ceiling — and below the threshold it leaves the expiry untouched; a single
`record_approval` resets the count to zero and clears the expiry. -/
theorem claim_C8_denial_backoff (base maxB : ℚ) (threshold : Nat) (now : ℚ)
    (st : UserRateState) :
    (record_denial base maxB threshold now st).denial_count = st.denial_count + 1 ∧
    (st.denial_count + 1 ≥ threshold →
      (record_denial base maxB threshold now st).backoff_until
        = some (now + min (base * 2 ^ (st.denial_count + 1 - threshold)) maxB)) ∧
    (st.denial_count + 1 < threshold →
      (record_denial base maxB threshold now st).backoff_until = st.backoff_until) ∧
    (record_approval st).denial_count = 0 ∧
    (record_approval st).backoff_until = none := by
  refine ⟨?_, ?_, ?_, rfl, rfl⟩
  · unfold record_denial
    by_cases h : st.denial_count + 1 ≥ threshold
    · rw [if_pos h]
    · rw [if_neg h]
  · intro h
    unfold record_denial
    rw [if_pos h]
  · intro h
    unfold record_denial
    rw [if_neg (by omega)]

/-- Witness for C8 at concrete values: threshold 3, base 5, ceiling 300; a
fifth denial yields `now + min(5·2², 300) = now + 20`, and an approval
resets. -/
theorem claim_C8_denial_backoff_witness :
    (record_denial 5 300 3 0 ⟨[], 4, none, none⟩).denial_count = 4 + 1 ∧
      4 + 1 ≥ 3 ∧
      (record_denial 5 300 3 0 ⟨[], 4, none, none⟩).backoff_until
        = some (0 + min ((5 : ℚ) * 2 ^ (4 + 1 - 3)) 300) ∧
      (record_approval ⟨[], 5, some 0, some 20⟩).denial_count = 0 ∧
      (record_approval ⟨[], 5, some 0, some 20⟩).backoff_until = none :=
  ⟨(claim_C8_denial_backoff 5 300 3 0 ⟨[], 4, none, none⟩).1,
    by decide,
    (claim_C8_denial_backoff 5 300 3 0 ⟨[], 4, none, none⟩).2.1 (by decide),
    (claim_C8_denial_backoff 5 300 3 0 ⟨[], 4, none, none⟩).2.2.2.1,
    (claim_C8_denial_backoff 5 300 3 0 ⟨[], 4, none, none⟩).2.2.2.2⟩

/-! ## Offline queue (`simstim/bridge/offline_queue.py`)

`QueuedEvent.data` is an opaque payload (a `dict` in the source, never
inspected by the queue).  `enqueue` returns `none` where the Python method
raises an uncaught `IndexError` (`self._queue.pop(0)` on an empty list),
and `some (queue', returned)` otherwise. -/

structure QueuedEvent where
  event_type : String
  timestamp : ℚ
  data : String
  priority : Int
deriving DecidableEq, Repr

/-- `OfflineQueue._prune_old_events`: keep events younger than the max age. -/
def prune_old_events (max_age now : ℚ) (q : List QueuedEvent) : List QueuedEvent :=
  q.filter (fun e => now - e.timestamp < max_age)

/-- `OfflineQueue.enqueue`: prune, drop the oldest when at or over capacity
(`pop(0)` — raising `IndexError` when the pruned queue is empty, which can
happen only for `max_size ≤ 0`), append, return `True`. -/
def enqueue (max_size : Nat) (max_age now : ℚ) (q : List QueuedEvent) (e : QueuedEvent) :
    Option (List QueuedEvent × Bool) :=
  let q1 := prune_old_events max_age now q
  if q1.length ≥ max_size then
    match q1 with
    | [] => none
    | _ :: rest => some (rest ++ [e], true)
  else some (q1 ++ [e], true)

/-- **C10 counterexample.** With `max_size = 0` and an empty queue the
capacity branch runs `self._queue.pop(0)` on an empty list, so `enqueue`
raises `IndexError` instead of returning `True` — the claim's "always
returns true for every queue state" fails at this input. -/
theorem claim_C10_counterexample :
    enqueue 0 3600 0 [] ⟨"generic_message", 0, "payload", 0⟩ = none := rfl

/-- **C10 (amended).** Provided `max_size ≥ 1`, `enqueue` always returns
`true`: when the queue already holds at least `max_size` events after
pruning expired ones, the oldest queued event is dropped and the new event
is still appended; below capacity the new event is simply appended —
`enqueue` never reports failure to its caller even at capacity. -/
theorem claim_C10_enqueue_true (max_size : Nat) (max_age now : ℚ)
    (q : List QueuedEvent) (e : QueuedEvent) (h : 1 ≤ max_size) :
    enqueue max_size max_age now q e
      = some ((if max_size ≤ (prune_old_events max_age now q).length
               then (prune_old_events max_age now q).tail
               else prune_old_events max_age now q) ++ [e], true) := by
  unfold enqueue
  by_cases hl : max_size ≤ (prune_old_events max_age now q).length
  · rw [if_pos hl, if_pos hl]
    cases hq : prune_old_events max_age now q with
    | nil =>
      rw [hq] at hl
      simp at hl
      omega
    | cons x rest => rfl
  · rw [if_neg hl, if_neg hl]

/-- Witness for the amended C10: capacity 2, two live queued events; the
oldest is dropped, the new event appended, `true` returned. -/
theorem claim_C10_enqueue_true_witness :
    (1 : Nat) ≤ 2 ∧
      enqueue 2 3600 0 [⟨"m", 0, "a", 0⟩, ⟨"m", 0, "b", 0⟩] ⟨"m", 0, "c", 0⟩
        = some ((if 2 ≤ (prune_old_events 3600 0
                    [⟨"m", 0, "a", 0⟩, ⟨"m", 0, "b", 0⟩]).length
                 then (prune_old_events 3600 0
                    [⟨"m", 0, "a", 0⟩, ⟨"m", 0, "b", 0⟩]).tail
                 else prune_old_events 3600 0
                    [⟨"m", 0, "a", 0⟩, ⟨"m", 0, "b", 0⟩]) ++ [⟨"m", 0, "c", 0⟩], true) :=
  ⟨by decide,
    claim_C10_enqueue_true 2 3600 0 [⟨"m", 0, "a", 0⟩, ⟨"m", 0, "b", 0⟩]
      ⟨"m", 0, "c", 0⟩ (by decide)⟩

end Simstim
